import Mathlib

/-
Verification of the model layer of a Rust heart-disease classifier
(src/rust_heart_disease_predictor).  The embedding is shallow:

* f32 arithmetic is modelled by exact rational arithmetic (ℚ).  All
  properties verified here are exact-arithmetic facts; decimal literals
  such as 1e-9 are taken at their exact rational value.
* The two transcendental functions of the source (sigmoid in logistic
  regression, sqrt in the KNN distance) are abstracted as function
  parameters, since they have no exact rational counterpart.  Theorems
  either hold for every choice of these parameters or state the one
  property of the real function they need (for instance sigmoid 0 = 1/2)
  as an explicit hypothesis.
* The Gaussian naive Bayes model is embedded over a small IEEE-style
  floating type FP (finite rationals extended with NaN and signed
  infinities), because the interesting behaviour of that component
  (claim C10) is NaN propagation from a 0.0/0.0 sample variance.
* Rust HashMap iteration order is unspecified; it is determinized here
  as first-occurrence order of the keys (List.dedup).  Every property
  proved about the tallying code is independent of that choice.
* Rust slice indexing panics when out of range; it is modelled with
  List.getD, and every theorem whose execution could reach an index
  carries the uniform-feature-length precondition of the data model, so
  the default value is never produced on the executions described.
-/

/-- A labeled record: ordered feature vector plus a binary target label
(ProcessedPatientRecord in src/preprocessing.rs; u8 labels are modelled
as Nat, no arithmetic is ever performed on them). -/
structure ProcessedPatientRecord where
  features : List ℚ
  target : Nat
deriving DecidableEq

instance : Inhabited ProcessedPatientRecord := ⟨⟨[], 0⟩⟩

/-- The tally map built by the three HashMap vote counters of the source
(KNN::majority_vote, DecisionTree::most_common_class,
VotingClassifier::predict): one entry per distinct value with its count,
in first-occurrence order of the values. -/
def countsOf (votes : List Nat) : List (Nat × Nat) :=
  votes.dedup.map (fun v => (v, votes.count v))

/-- Iterator max_by_key on the count, as used on the tally maps: returns
the entry with the maximal count, the last such entry on ties (Rust
semantics of max_by_key), and none on an empty tally. -/
def maxByCount (l : List (Nat × Nat)) : Option (Nat × Nat) :=
  l.foldl
    (fun acc p =>
      match acc with
      | none => some p
      | some q => if q.2 ≤ p.2 then some p else some q)
    none

/-- KNN::majority_vote (src/models/knn.rs): tally the votes and return
the value with the maximal count, defaulting to 0 (unwrap_or(0)). -/
def majority_vote (neighbors : List Nat) : Nat :=
  ((maxByCount (countsOf neighbors)).map Prod.fst).getD 0

/-- Exact value of f32::MAX, the sentinel distance of KNN. -/
def f32MAX : ℚ := (2 ^ 24 - 1) * 2 ^ 104

/-- KNN::euclidean_distance (src/models/knn.rs): f32::MAX sentinel on a
length mismatch, otherwise sqrt of the sum of squared differences.  The
square root is the abstracted parameter sqt. -/
def euclidean_distance (sqt : ℚ → ℚ) (a b : List ℚ) : ℚ :=
  if a.length ≠ b.length then f32MAX
  else sqt (((a.zip b).map (fun p => (p.1 - p.2) ^ 2)).sum)

/-- KNN internal state: the verbatim copy of the training set plus the
fixed neighbor count k. -/
structure KNNState where
  training_data : List ProcessedPatientRecord
  k : Nat
deriving DecidableEq

/-- KNN::new(k): empty training data. -/
def KNN.new (k : Nat) : KNNState := ⟨[], k⟩

/-- KNN::train: stores a verbatim copy of the training collection
(also when it is empty; there is no emptiness guard in the source). -/
def KNN.train (s : KNNState) (training_data : List ProcessedPatientRecord) : KNNState :=
  { s with training_data := training_data }

/-- The comparison used to sort the (distance, target) pairs ascending
by distance (sort_by on partial_cmp of the first component). -/
def distLE (a b : ℚ × Nat) : Prop := a.1 ≤ b.1

instance : DecidableRel distLE := fun a b => inferInstanceAs (Decidable (a.1 ≤ b.1))

instance : IsTotal (ℚ × Nat) distLE := ⟨fun a b => le_total a.1 b.1⟩

instance : IsTrans (ℚ × Nat) distLE := ⟨fun _ _ _ h h₂ => le_trans h h₂⟩

/-- The sorted list of (distance, target) pairs computed inside
KNN::predict: one pair per training record, stably sorted by distance
ascending (Rust sort_by is a stable sort; insertionSort is stable for
the same comparison, so the two agree). -/
def knnSorted (sqt : ℚ → ℚ) (query : List ℚ)
    (training_data : List ProcessedPatientRecord) : List (ℚ × Nat) :=
  List.insertionSort distLE
    (training_data.map (fun t => (euclidean_distance sqt query t.features, t.target)))

/-- KNN::predict (src/models/knn.rs): default 0 on an empty training
set, otherwise majority vote over the targets of the k (or fewer)
nearest stored records. -/
def KNN.predict (sqt : ℚ → ℚ) (s : KNNState) (record : ProcessedPatientRecord) : Nat :=
  if s.training_data.isEmpty then 0
  else
    majority_vote (((knnSorted sqt record.features s.training_data).take s.k).map Prod.snd)

/-- Decision tree nodes (enum Node in src/models/decision_tree.rs):
a leaf with a predicted label, or an internal node with a feature
index, a threshold, and two owned subtrees. -/
inductive Node where
  | Leaf : Nat → Node
  | Internal : Nat → ℚ → Node → Node → Node
deriving DecidableEq

/-- DecisionTree state: optional root plus the two fixed
hyperparameters. -/
structure DecisionTree where
  root : Option Node
  max_depth : Nat
  min_samples_split : Nat
deriving DecidableEq

/-- DecisionTree::new. -/
def DecisionTree.new (max_depth min_samples_split : Nat) : DecisionTree :=
  ⟨none, max_depth, min_samples_split⟩

/-- DecisionTree::split_data: left gets the records whose value at
feature_idx is ≤ threshold, right the rest, both in input order. -/
def split_data (data : List ProcessedPatientRecord) (feature_idx : Nat) (threshold : ℚ) :
    List ProcessedPatientRecord × List ProcessedPatientRecord :=
  (data.filter (fun r => decide (r.features.getD feature_idx 0 ≤ threshold)),
   data.filter (fun r => decide (¬ r.features.getD feature_idx 0 ≤ threshold)))

/-- DecisionTree::calculate_gini: 0 on empty data, otherwise
1 − Σ over distinct labels of (count/total)².  The HashMap count loop
is rendered as a sum over the finset of labels occurring in the data
(addition is commutative, so the iteration order is irrelevant). -/
def calculate_gini (data : List ProcessedPatientRecord) : ℚ :=
  if data.isEmpty then 0
  else
    1 - ∑ l ∈ (data.map (fun r => r.target)).toFinset,
      ((((data.map (fun r => r.target)).count l : ℚ)) / ((data.map (fun r => r.target)).length : ℚ)) ^ 2

/-- DecisionTree::calculate_split_gini: size-weighted average of the
Gini impurities of the two sides. -/
def calculate_split_gini (left_data right_data : List ProcessedPatientRecord) : ℚ :=
  ((left_data.length : ℚ) / ((left_data.length + right_data.length : Nat) : ℚ)) * calculate_gini left_data
    + ((right_data.length : ℚ) / ((left_data.length + right_data.length : Nat) : ℚ)) * calculate_gini right_data

/-- The candidate thresholds for one feature inside
DecisionTree::find_best_split: midpoints of adjacent distinct sorted
feature values. -/
def candidate_thresholds (data : List ProcessedPatientRecord) (feature_idx : Nat) : List ℚ :=
  let sorted_values := (List.insertionSort (· ≤ ·) (data.map (fun r => r.features.getD feature_idx 0))).dedup
  (sorted_values.zip sorted_values.tail).map (fun p => (p.1 + p.2) / 2)

/-- One candidate step of DecisionTree::find_best_split: skip candidates
with an empty side, otherwise keep the candidate when its weighted Gini
is strictly smaller than the best so far. -/
def best_split_step (data : List ProcessedPatientRecord)
    (acc : ℚ × Option (Nat × ℚ)) (cand : Nat × ℚ) : ℚ × Option (Nat × ℚ) :=
  let parts := split_data data cand.1 cand.2
  if parts.1.isEmpty ∨ parts.2.isEmpty then acc
  else
    let gini := calculate_split_gini parts.1 parts.2
    if gini < acc.1 then (gini, some cand) else acc

/-- DecisionTree::find_best_split: scan every (feature, threshold)
candidate in feature-index then ascending-threshold order, starting
from best_gini = f32::MAX and no split. -/
def find_best_split (data : List ProcessedPatientRecord) : Option (Nat × ℚ) :=
  if data.isEmpty then none
  else
    (((List.range data.headI.features.length).flatMap
        (fun feature_idx => (candidate_thresholds data feature_idx).map (fun t => (feature_idx, t)))).foldl
      (best_split_step data) (f32MAX, none)).2

/-- DecisionTree::most_common_class: HashMap count of the targets, then
max_by_key on the count, defaulting to 0. -/
def most_common_class (data : List ProcessedPatientRecord) : Nat :=
  ((maxByCount (countsOf (data.map (fun r => r.target)))).map Prod.fst).getD 0

/-- DecisionTree::build_tree: leaf 0 on empty data; a pure leaf when all
targets agree; a majority leaf when the depth or minimum-samples
stopping rule fires; otherwise split on the best candidate and recurse
at depth+1, or fall back to a majority leaf when no split exists. -/
def build_tree (max_depth min_samples_split : Nat)
    (data : List ProcessedPatientRecord) (depth : Nat) : Node :=
  if data.isEmpty then Node.Leaf 0
  else
    if data.all (fun r => decide (r.target = data.headI.target)) then Node.Leaf data.headI.target
    else
      if h : max_depth ≤ depth ∨ data.length < min_samples_split then
        Node.Leaf (most_common_class data)
      else
        match find_best_split data with
        | some (best_feature, best_threshold) =>
          Node.Internal best_feature best_threshold
            (build_tree max_depth min_samples_split (split_data data best_feature best_threshold).1 (depth + 1))
            (build_tree max_depth min_samples_split (split_data data best_feature best_threshold).2 (depth + 1))
        | none => Node.Leaf (most_common_class data)
termination_by max_depth - depth
decreasing_by
  all_goals
    push_neg at h
    omega

/-- DecisionTree::train: builds the tree only when the training data is
nonempty; on empty data the state is left untouched. -/
def DecisionTree.train (s : DecisionTree) (training_data : List ProcessedPatientRecord) : DecisionTree :=
  if training_data.isEmpty then s
  else { s with root := some (build_tree s.max_depth s.min_samples_split training_data 0) }

/-- DecisionTree::predict_from_node: descend left on value ≤ threshold,
right otherwise. -/
def predict_from_node (node : Node) (features : List ℚ) : Nat :=
  match node with
  | Node.Leaf c => c
  | Node.Internal feature_index threshold left right =>
    if features.getD feature_index 0 ≤ threshold then predict_from_node left features
    else predict_from_node right features

/-- DecisionTree::predict: default 0 when the tree was never built. -/
def DecisionTree.predict (s : DecisionTree) (record : ProcessedPatientRecord) : Nat :=
  match s.root with
  | some node => predict_from_node node record.features
  | none => 0

/-- The metric quadruple of src/evaluation.rs. -/
@[ext]
structure Metrics where
  accuracy : ℚ
  precision : ℚ
  «recall» : ℚ
  f1_score : ℚ
deriving DecidableEq

/-- One step of the confusion-matrix scan of calculate_metrics: the
match on (prediction, target), counting (tp, tn, fp, fn) and ignoring
every other combination. -/
def confusion_step (predict : ProcessedPatientRecord → Nat)
    (c : Nat × Nat × Nat × Nat) (record : ProcessedPatientRecord) : Nat × Nat × Nat × Nat :=
  match predict record, record.target with
  | 1, 1 => (c.1 + 1, c.2.1, c.2.2.1, c.2.2.2)
  | 0, 0 => (c.1, c.2.1 + 1, c.2.2.1, c.2.2.2)
  | 1, 0 => (c.1, c.2.1, c.2.2.1 + 1, c.2.2.2)
  | 0, 1 => (c.1, c.2.1, c.2.2.1, c.2.2.2 + 1)
  | _, _ => c

/-- calculate_metrics (src/evaluation.rs): a single scan of the test
data accumulating the confusion counts, then the four derived metrics
with their zero-guards.  The classifier argument (a trait object in the
source) is its predict function.  With an empty test collection the f32
accuracy would be 0/0 = NaN; in ℚ division by zero yields 0, and every
theorem touching accuracy on that edge assumes a nonempty collection. -/
def calculate_metrics (predict : ProcessedPatientRecord → Nat)
    (test_data : List ProcessedPatientRecord) : Metrics × (Nat × Nat × Nat × Nat) :=
  let c := test_data.foldl (confusion_step predict) (0, 0, 0, 0)
  let accuracy : ℚ := ((c.1 + c.2.1 : Nat) : ℚ) / (test_data.length : ℚ)
  let precision : ℚ := if 0 < c.1 + c.2.2.1 then (c.1 : ℚ) / ((c.1 + c.2.2.1 : Nat) : ℚ) else 0
  let «recall» : ℚ := if 0 < c.1 + c.2.2.2 then (c.1 : ℚ) / ((c.1 + c.2.2.2 : Nat) : ℚ) else 0
  let f1_score : ℚ := if 0 < precision + «recall» then 2 * (precision * «recall») / (precision + «recall») else 0
  (⟨accuracy, precision, «recall», f1_score⟩, c)

/-- LogisticRegression state: weight vector plus the two fixed
hyperparameters. -/
structure LogisticRegression where
  weights : List ℚ
  learning_rate : ℚ
  epochs : Nat
deriving DecidableEq

/-- LogisticRegression::new: empty weight vector. -/
def LogisticRegression.new (learning_rate : ℚ) (epochs : Nat) : LogisticRegression :=
  ⟨[], learning_rate, epochs⟩

/-- The dot product of the bias-extended feature vector with the weight
vector: zip (truncating at the shorter list, as Rust zip does), multiply
pointwise, sum. -/
def dot_weights (features_with_bias weights : List ℚ) : ℚ :=
  ((features_with_bias.zip weights).map (fun p => p.1 * p.2)).sum

/-- One per-record update of LogisticRegression::train, for an abstract
sigmoid: compute the predicted probability, the signed error, and add
learning_rate * error * input to every weight.  Weight i reads input i
of the bias-extended vector (equal lengths under the uniform-length
precondition; the source would panic otherwise). -/
def lr_record_step (sig : ℚ → ℚ) (learning_rate : ℚ)
    (weights : List ℚ) (record : ProcessedPatientRecord) : List ℚ :=
  let features_with_bias := 1 :: record.features
  let prediction := sig (dot_weights features_with_bias weights)
  let error := (record.target : ℚ) - prediction
  weights.mapIdx (fun i w => w + learning_rate * error * features_with_bias.getD i 0)

/-- LogisticRegression::train: no-op on empty data, otherwise weights
start at zero (length F+1) and every epoch folds the per-record update
over the data in order. -/
def LogisticRegression.train (sig : ℚ → ℚ) (s : LogisticRegression)
    (data : List ProcessedPatientRecord) : LogisticRegression :=
  if data.isEmpty then s
  else
    { s with
      weights :=
        (List.range s.epochs).foldl
          (fun w _ => data.foldl (lr_record_step sig s.learning_rate) w)
          (List.replicate (data.headI.features.length + 1) 0) }

/-- LogisticRegression::predict: sigmoid of the dot product, label 1
exactly when the probability is ≥ 0.5. -/
def LogisticRegression.predict (sig : ℚ → ℚ) (s : LogisticRegression)
    (record : ProcessedPatientRecord) : Nat :=
  if 1 / 2 ≤ sig (dot_weights (1 :: record.features) s.weights) then 1 else 0

/-- The first-order Taylor expansion of the logistic function at 0.
It agrees with the source sigmoid at the one point the theorems about
untrained predictions need (value 1/2 at argument 0) and is used to
instantiate the abstract sigmoid parameter in closed witnesses. -/
def sigmoid_taylor (z : ℚ) : ℚ := 1 / 2 + z / 4

/-- An IEEE-754-style scalar: a finite value (kept exact as a rational),
NaN, or a signed infinity.  Signed zero and rounding are not modelled;
no verified statement depends on them. -/
inductive FP where
  | fin : ℚ → FP
  | nan : FP
  | inf : FP
  | neginf : FP
deriving DecidableEq

/-- IEEE negation. -/
def fneg : FP → FP
  | .fin q => .fin (-q)
  | .nan => .nan
  | .inf => .neginf
  | .neginf => .inf

/-- IEEE addition: NaN absorbs, opposite infinities give NaN. -/
def fadd : FP → FP → FP
  | .nan, _ => .nan
  | _, .nan => .nan
  | .fin a, .fin b => .fin (a + b)
  | .inf, .neginf => .nan
  | .neginf, .inf => .nan
  | .inf, _ => .inf
  | _, .inf => .inf
  | .neginf, _ => .neginf
  | _, .neginf => .neginf

/-- IEEE subtraction as addition of the negation. -/
def fsub (a b : FP) : FP := fadd a (fneg b)

/-- IEEE multiplication: NaN absorbs, infinity times zero gives NaN. -/
def fmul : FP → FP → FP
  | .nan, _ => .nan
  | _, .nan => .nan
  | .fin a, .fin b => .fin (a * b)
  | .inf, .fin b => if b = 0 then .nan else if 0 < b then .inf else .neginf
  | .fin a, .inf => if a = 0 then .nan else if 0 < a then .inf else .neginf
  | .neginf, .fin b => if b = 0 then .nan else if 0 < b then .neginf else .inf
  | .fin a, .neginf => if a = 0 then .nan else if 0 < a then .neginf else .inf
  | .inf, .inf => .inf
  | .neginf, .neginf => .inf
  | .inf, .neginf => .neginf
  | .neginf, .inf => .neginf

/-- IEEE division: NaN absorbs, 0/0 and inf/inf give NaN, finite/0
gives an infinity carrying the numerator sign (signed zero being
unmodelled), finite/inf gives 0. -/
def fdiv : FP → FP → FP
  | .nan, _ => .nan
  | _, .nan => .nan
  | .fin a, .fin b =>
    if b = 0 then (if a = 0 then .nan else if 0 < a then .inf else .neginf)
    else .fin (a / b)
  | .fin _, .inf => .fin 0
  | .fin _, .neginf => .fin 0
  | .inf, .fin b => if 0 ≤ b then .inf else .neginf
  | .neginf, .fin b => if 0 ≤ b then .neginf else .inf
  | .inf, .inf => .nan
  | .inf, .neginf => .nan
  | .neginf, .inf => .nan
  | .neginf, .neginf => .nan

/-- IEEE strict greater-than: false whenever either side is NaN. -/
def fgt : FP → FP → Bool
  | .nan, _ => false
  | _, .nan => false
  | .fin a, .fin b => decide (b < a)
  | .inf, .inf => false
  | .inf, _ => true
  | _, .inf => false
  | .neginf, .neginf => false
  | _, .neginf => true
  | .neginf, _ => false

/-- Iterator sum over f32, starting from 0.0. -/
def fsum (l : List FP) : FP := l.foldl fadd (.fin 0)

/-- Per-class statistics of GaussianNB (struct ClassStats in
src/models/naive_bayes.rs). -/
structure ClassStats where
  mean : List FP
  variance : List FP
  prior : FP
deriving DecidableEq

/-- The GaussianNB state: its HashMap from label to ClassStats,
determinized as an association list in insertion order. -/
abbrev NBStats : Type := List (Nat × ClassStats)

/-- HashMap::insert on the association list: overwrite in place when the
key is present, append otherwise. -/
def insertAssoc (stats : NBStats) (c : Nat) (st : ClassStats) : NBStats :=
  if stats.any (fun p => decide (p.1 = c)) then
    stats.map (fun p => if p.1 = c then (c, st) else p)
  else stats ++ [(c, st)]

/-- The entry of separated_by_class for label c: the records of that
class, in data order (HashMap entry vectors are filled by one pass over
the data). -/
def class_records (data : List ProcessedPatientRecord) (c : Nat) : List ProcessedPatientRecord :=
  data.filter (fun r => decide (r.target = c))

/-- The ClassStats computed by GaussianNB::train for one class: prior =
class count / total count; per feature, mean = sum/n and variance =
Σ(x−mean)²/(n−1) plus the 1e-9 epsilon.  For a singleton class the
variance divides 0.0 by 0.0.  The usize subtraction n−1 cannot
underflow because the class, being present, has at least one record. -/
def nb_class_stats (data : List ProcessedPatientRecord) (c : Nat) : ClassStats :=
  let class_data := class_records data c
  let pairs := (List.range class_data.headI.features.length).map (fun i =>
    let feature_values : List ℚ := class_data.map (fun r => r.features.getD i 0)
    let mean := fdiv (fsum (feature_values.map FP.fin)) (.fin (feature_values.length : ℚ))
    let variance :=
      fdiv (fsum (feature_values.map (fun x => fmul (fsub (.fin x) mean) (fsub (.fin x) mean))))
        (.fin ((feature_values.length - 1 : Nat) : ℚ))
    (mean, fadd variance (.fin (1 / 1000000000))))
  { mean := pairs.map Prod.fst
    variance := pairs.map Prod.snd
    prior := fdiv (.fin (class_data.length : ℚ)) (.fin (data.length : ℚ)) }

/-- GaussianNB::train: early return on empty data; otherwise insert the
ClassStats of every class occurring in the data into the existing stats
map.  The map is not cleared first: entries of classes absent from the
new data survive a retraining. -/
def GaussianNB.train (stats : NBStats) (data : List ProcessedPatientRecord) : NBStats :=
  if data.isEmpty then stats
  else
    ((data.map (fun r => r.target)).dedup).foldl
      (fun s c => insertAssoc s c (nb_class_stats data c)) stats

/-- GaussianNB::calculate_likelihood: the Gaussian density
(1 / sqrt(2·π·var)) · exp(−(x−mean)² / (2·var)), with sqrt, exp and π
abstracted. -/
def calculate_likelihood (expF sqrtF : FP → FP) (piF : FP) (x mean variance : FP) : FP :=
  let exponent := fdiv (fneg (fmul (fsub x mean) (fsub x mean))) (fmul (.fin 2) variance)
  fmul (fdiv (.fin 1) (sqrtF (fmul (fmul (.fin 2) piF) variance))) (expF exponent)

/-- The accumulated log-posterior of one class inside
GaussianNB::predict: log prior plus, for every feature index of the
record, log(likelihood + 1e-10). -/
def nb_posterior (lnF expF sqrtF : FP → FP) (piF : FP)
    (stats : ClassStats) (record : ProcessedPatientRecord) : FP :=
  (List.range record.features.length).foldl
    (fun post i =>
      fadd post
        (lnF (fadd
          (calculate_likelihood expF sqrtF piF (.fin (record.features.getD i 0))
            (stats.mean.getD i .nan) (stats.variance.getD i .nan))
          (.fin (1 / 10000000000)))))
    (lnF stats.prior)

/-- GaussianNB::predict: start from (best_class, max_posterior) =
(0, −∞) and take every class whose posterior is strictly greater than
the maximum so far.  An untrained model therefore returns 0, and a NaN
posterior can never win the comparison. -/
def GaussianNB.predict (lnF expF sqrtF : FP → FP) (piF : FP)
    (stats : NBStats) (record : ProcessedPatientRecord) : Nat :=
  (stats.foldl
    (fun acc p =>
      if fgt (nb_posterior lnF expF sqrtF piF p.2 record) acc.2 then
        (p.1, nb_posterior lnF expF sqrtF piF p.2 record)
      else acc)
    (0, .neginf)).1

/-- The bundle of abstracted transcendental functions: the logistic
sigmoid and the f32 sqrt over rationals, plus ln, exp, sqrt and the π
constant over FP for the naive Bayes component. -/
structure Funs where
  sig : ℚ → ℚ
  sqt : ℚ → ℚ
  lnF : FP → FP
  expF : FP → FP
  sqrtF : FP → FP
  piF : FP

/-- The closed variant set of Box<dyn Model> trait objects: the four
concrete classifiers.  (The ensemble itself is handled at the top level
by VotingClassifier; the source program never nests ensembles.) -/
inductive ModelState where
  | lr : LogisticRegression → ModelState
  | nb : NBStats → ModelState
  | knn : KNNState → ModelState
  | dt : DecisionTree → ModelState
deriving DecidableEq

/-- Model::train dynamic dispatch. -/
def Model.train (fns : Funs) : ModelState → List ProcessedPatientRecord → ModelState
  | .lr s, d => .lr (LogisticRegression.train fns.sig s d)
  | .nb s, d => .nb (GaussianNB.train s d)
  | .knn s, d => .knn (KNN.train s d)
  | .dt s, d => .dt (DecisionTree.train s d)

/-- Model::predict dynamic dispatch. -/
def Model.predict (fns : Funs) : ModelState → ProcessedPatientRecord → Nat
  | .lr s, r => LogisticRegression.predict fns.sig s r
  | .nb s, r => GaussianNB.predict fns.lnF fns.expF fns.sqrtF fns.piF s r
  | .knn s, r => KNN.predict fns.sqt s r
  | .dt s, r => DecisionTree.predict s r

/-- VotingClassifier::train (src/ensemble.rs): delegate to every member
in order with the same data. -/
def VotingClassifier.train (fns : Funs) (models : List ModelState)
    (training_data : List ProcessedPatientRecord) : List ModelState :=
  models.map (fun m => Model.train fns m training_data)

/-- VotingClassifier::predict (src/ensemble.rs): collect every member
vote, tally, and take the most frequent label; with no tally entries
(no members) fall back to the first vote or 0. -/
def VotingClassifier.predict (fns : Funs) (models : List ModelState)
    (record : ProcessedPatientRecord) : Nat :=
  let votes := models.map (fun m => Model.predict fns m record)
  ((maxByCount (countsOf votes)).map Prod.fst).getD (votes.headD 0)

/-- Modelled from the spec, section 4.7 (refinement reference for the
evaluator): TP, TN, FP, FN counted by comparing the prediction with
each record's true label; accuracy = (TP+TN)/total; precision =
TP/(TP+FP) with 0 when TP+FP = 0; recall = TP/(TP+FN) with 0 when
TP+FN = 0; F1 = 2·precision·recall/(precision+recall) with 0 when
precision+recall = 0. -/
def metrics_spec (predict : ProcessedPatientRecord → Nat)
    (test_data : List ProcessedPatientRecord) : Metrics × (Nat × Nat × Nat × Nat) :=
  let tp := test_data.countP (fun r => decide (predict r = 1 ∧ r.target = 1))
  let tn := test_data.countP (fun r => decide (predict r = 0 ∧ r.target = 0))
  let fp := test_data.countP (fun r => decide (predict r = 1 ∧ r.target = 0))
  let fn := test_data.countP (fun r => decide (predict r = 0 ∧ r.target = 1))
  let precision : ℚ := if tp + fp = 0 then 0 else (tp : ℚ) / ((tp + fp : Nat) : ℚ)
  let «recall» : ℚ := if tp + fn = 0 then 0 else (tp : ℚ) / ((tp + fn : Nat) : ℚ)
  let f1_score : ℚ :=
    if precision + «recall» = 0 then 0 else 2 * (precision * «recall») / (precision + «recall»)
  (⟨((tp + tn : Nat) : ℚ) / (test_data.length : ℚ), precision, «recall», f1_score⟩,
    (tp, tn, fp, fn))

/-- A concrete instantiation of the abstract function bundle used by
closed witnesses: the Taylor stand-in for sigmoid (agreeing with the
logistic function at 0) and identity stand-ins for the FP
transcendentals (which propagate NaN, the only property used). -/
def fns_id : Funs := ⟨sigmoid_taylor, id, id, id, id, .fin 0⟩

/-- The max_by_key fold started on some q returns an element of the
processed list or q itself, with a count at least every processed count
and at least that of q. -/
theorem maxByCount_go (l : List (Nat × Nat)) (q : Nat × Nat) :
    ∃ m, l.foldl
        (fun acc p =>
          match acc with
          | none => some p
          | some q' => if q'.2 ≤ p.2 then some p else some q')
        (some q) = some m ∧ (m = q ∨ m ∈ l) ∧ q.2 ≤ m.2 ∧ ∀ p ∈ l, p.2 ≤ m.2 := by
  induction l generalizing q with
  | nil => exact ⟨q, rfl, Or.inl rfl, le_refl _, by simp⟩
  | cons a t ih =>
    by_cases hqa : q.2 ≤ a.2
    · obtain ⟨m, hm, hmem, hle, hall⟩ := ih a
      refine ⟨m, ?_, ?_, le_trans hqa hle, ?_⟩
      · simpa [List.foldl_cons, hqa] using hm
      · rcases hmem with h | h
        · exact Or.inr (h ▸ List.mem_cons_self a t)
        · exact Or.inr (List.mem_cons_of_mem a h)
      · intro p hp
        rcases List.mem_cons.mp hp with h | h
        · exact h ▸ hle
        · exact hall p h
    · obtain ⟨m, hm, hmem, hle, hall⟩ := ih q
      refine ⟨m, ?_, ?_, hle, ?_⟩
      · simpa [List.foldl_cons, hqa] using hm
      · rcases hmem with h | h
        · exact Or.inl h
        · exact Or.inr (List.mem_cons_of_mem a h)
      · intro p hp
        rcases List.mem_cons.mp hp with h | h
        · subst h
          exact le_trans (le_of_not_le hqa) hle
        · exact hall p h

/-- On a nonempty tally, max_by_key returns an entry of the tally whose
count bounds every count. -/
theorem maxByCount_spec (l : List (Nat × Nat)) (h : l ≠ []) :
    ∃ m, maxByCount l = some m ∧ m ∈ l ∧ ∀ p ∈ l, p.2 ≤ m.2 := by
  cases l with
  | nil => exact absurd rfl h
  | cons a t =>
    obtain ⟨m, hm, hmem, hle, hall⟩ := maxByCount_go t a
    refine ⟨m, ?_, ?_, ?_⟩
    · simpa [maxByCount, List.foldl_cons] using hm
    · rcases hmem with h | h
      · exact h ▸ List.mem_cons_self a t
      · exact List.mem_cons_of_mem a h
    · intro p hp
      rcases List.mem_cons.mp hp with h | h
      · exact h ▸ hle
      · exact hall p h

/-- Counts of two distinct values never exceed the list length
together. -/
theorem count_add_count_le_length (l : List Nat) (a b : Nat) (hab : a ≠ b) :
    l.count a + l.count b ≤ l.length := by
  induction l with
  | nil => simp
  | cons c t ih =>
    rw [List.count_cons, List.count_cons, List.length_cons]
    split_ifs with h1 h2 h3
    · exact absurd ((eq_of_beq h1).symm.trans (eq_of_beq h2)) hab
    · omega
    · omega
    · omega

/-- A label with a strict majority of the votes is the unique maximum of
the tally, so max_by_key returns it regardless of iteration order. -/
theorem tally_majority (votes : List Nat) (L : Nat)
    (h : votes.length < 2 * votes.count L) :
    (maxByCount (countsOf votes)).map Prod.fst = some L := by
  have hpos : 0 < votes.count L := by
    rcases Nat.eq_zero_or_pos (votes.count L) with h0 | h0
    · rw [h0] at h
      omega
    · exact h0
  have hLmem : L ∈ votes := List.count_pos_iff.mp hpos
  have hLded : L ∈ votes.dedup := List.mem_dedup.mpr hLmem
  have hne : countsOf votes ≠ [] := by
    simp only [countsOf, ne_eq, List.map_eq_nil_iff]
    intro hnil
    rw [hnil] at hLded
    exact absurd hLded (List.not_mem_nil L)
  obtain ⟨m, hm, hmem, hall⟩ := maxByCount_spec _ hne
  obtain ⟨v, hv, hveq⟩ := List.mem_map.mp hmem
  have hLcount : (L, votes.count L) ∈ countsOf votes :=
    List.mem_map.mpr ⟨L, hLded, rfl⟩
  have hLle : votes.count L ≤ m.2 := hall _ hLcount
  have hveq2 : m.2 = votes.count v := by rw [← hveq]
  by_cases hvL : v = L
  · subst hvL
    rw [hm, ← hveq]
    simp
  · exfalso
    have hsum : votes.count v + votes.count L ≤ votes.length :=
      count_add_count_le_length votes v L hvL
    rw [hveq2] at hLle
    omega

/-- C9: whenever the member predictions give one label a strict
majority of the votes, VotingClassifier::predict returns that label
(whatever the tally iteration order); in particular three members
voting 1, 1, 0 yield 1. -/
theorem ensemble_majority (fns : Funs) (models : List ModelState)
    (record : ProcessedPatientRecord) (L : Nat)
    (h : (models.map (fun m => Model.predict fns m record)).length
        < 2 * (models.map (fun m => Model.predict fns m record)).count L) :
    VotingClassifier.predict fns models record = L := by
  have hmax := tally_majority (models.map (fun m => Model.predict fns m record)) L h
  simp only [VotingClassifier.predict, hmax, Option.getD_some]

/-- Witness for C9 at the particular input of the claim: three members
predicting 1, 1, 0 on the same record; the ensemble returns 1. -/
theorem ensemble_majority_witness :
    (([ModelState.dt ⟨some (Node.Leaf 1), 1, 2⟩, ModelState.dt ⟨some (Node.Leaf 1), 1, 2⟩,
        ModelState.dt ⟨some (Node.Leaf 0), 1, 2⟩].map
        (fun m => Model.predict fns_id m ⟨[1], 0⟩)).length
      < 2 * ([ModelState.dt ⟨some (Node.Leaf 1), 1, 2⟩, ModelState.dt ⟨some (Node.Leaf 1), 1, 2⟩,
        ModelState.dt ⟨some (Node.Leaf 0), 1, 2⟩].map
        (fun m => Model.predict fns_id m ⟨[1], 0⟩)).count 1) ∧
    VotingClassifier.predict fns_id
      [ModelState.dt ⟨some (Node.Leaf 1), 1, 2⟩, ModelState.dt ⟨some (Node.Leaf 1), 1, 2⟩,
        ModelState.dt ⟨some (Node.Leaf 0), 1, 2⟩] ⟨[1], 0⟩ = 1 :=
  ⟨by decide, ensemble_majority fns_id
    [ModelState.dt ⟨some (Node.Leaf 1), 1, 2⟩, ModelState.dt ⟨some (Node.Leaf 1), 1, 2⟩,
      ModelState.dt ⟨some (Node.Leaf 0), 1, 2⟩] ⟨[1], 0⟩ 1 (by decide)⟩

/-- C6: with a nonempty training set smaller than k, KNN::predict takes
the labels of the whole training set (a permutation of all n stored
labels, no out-of-range access) and returns their majority vote — in
particular any label holding a strict majority of the stored labels.
With an empty training set it returns the default label 0. -/
theorem knn_k_exceeds_training (sqt : ℚ → ℚ) (s : KNNState)
    (record : ProcessedPatientRecord)
    (hne : s.training_data ≠ []) (hk : s.training_data.length < s.k) :
    (∃ labs : List Nat,
        labs.Perm (s.training_data.map (fun t => t.target)) ∧
        KNN.predict sqt s record = majority_vote labs) ∧
    (∀ L : Nat,
        s.training_data.length < 2 * (s.training_data.map (fun t => t.target)).count L →
        KNN.predict sqt s record = L) ∧
    (∀ k₂ : Nat, ∀ r : ProcessedPatientRecord, KNN.predict sqt ⟨[], k₂⟩ r = 0) := by
  have hperm : (knnSorted sqt record.features s.training_data).Perm
      (s.training_data.map (fun t => (euclidean_distance sqt record.features t.features, t.target))) :=
    List.perm_insertionSort distLE _
  have hlen : (knnSorted sqt record.features s.training_data).length = s.training_data.length := by
    rw [hperm.length_eq, List.length_map]
  have htake : (knnSorted sqt record.features s.training_data).take s.k
      = knnSorted sqt record.features s.training_data :=
    List.take_of_length_le (by omega)
  have hlabs : ((knnSorted sqt record.features s.training_data).map Prod.snd).Perm
      (s.training_data.map (fun t => t.target)) := by
    have := hperm.map Prod.snd
    simpa [List.map_map, Function.comp] using this
  have hpred : KNN.predict sqt s record
      = majority_vote ((knnSorted sqt record.features s.training_data).map Prod.snd) := by
    unfold KNN.predict
    rw [if_neg (by simpa [List.isEmpty_iff] using hne), htake]
  refine ⟨⟨_, hlabs, hpred⟩, ?_, ?_⟩
  · intro L hL
    rw [hpred]
    unfold majority_vote
    have hcount : ((knnSorted sqt record.features s.training_data).map Prod.snd).count L
        = (s.training_data.map (fun t => t.target)).count L := hlabs.count_eq L
    have hlen2 : ((knnSorted sqt record.features s.training_data).map Prod.snd).length
        = s.training_data.length := by
      rw [List.length_map, hlen]
    have := tally_majority ((knnSorted sqt record.features s.training_data).map Prod.snd) L
      (by rw [hcount, hlen2]; simpa [List.length_map] using hL)
    rw [this, Option.getD_some]
  · intro k₂ r
    rfl

/-- Witness for C6: two stored records, k = 5 greater than the training
size; the prediction is the majority label 1 of the full training set. -/
theorem knn_k_exceeds_training_witness :
    ((⟨[⟨[1], 1⟩, ⟨[2], 1⟩], 5⟩ : KNNState).training_data ≠ [] ∧
      (⟨[⟨[1], 1⟩, ⟨[2], 1⟩], 5⟩ : KNNState).training_data.length
        < (⟨[⟨[1], 1⟩, ⟨[2], 1⟩], 5⟩ : KNNState).k) ∧
    KNN.predict id (⟨[⟨[1], 1⟩, ⟨[2], 1⟩], 5⟩ : KNNState) ⟨[0], 0⟩ = 1 :=
  ⟨⟨by decide, by decide⟩,
    (knn_k_exceeds_training id ⟨[⟨[1], 1⟩, ⟨[2], 1⟩], 5⟩ ⟨[0], 0⟩
      (by decide) (by decide)).2.1 1 (by decide)⟩

/-- C7: a stored feature vector whose length differs from the query's
gets the sentinel distance f32::MAX, and in the sorted distance list
every pair carrying a distance strictly below the sentinel comes before
every pair carrying the sentinel — so, under the stated assumption that
matching-length records have non-sentinel distances, mismatched records
sort after all matching ones. -/
theorem knn_mismatch_sentinel (sqt : ℚ → ℚ) (query : List ℚ)
    (T : List ProcessedPatientRecord)
    (h : ∀ t ∈ T, t.features.length = query.length →
        euclidean_distance sqt query t.features < f32MAX) :
    (∀ t ∈ T, t.features.length ≠ query.length →
        euclidean_distance sqt query t.features = f32MAX) ∧
    ∀ i j : Fin (knnSorted sqt query T).length,
      ((knnSorted sqt query T).get i).1 = f32MAX →
      ((knnSorted sqt query T).get j).1 < f32MAX → j < i := by
  constructor
  · intro t _ hlen
    unfold euclidean_distance
    rw [if_pos (fun hq => hlen hq.symm)]
  · have hs : List.Sorted distLE (knnSorted sqt query T) :=
      List.sorted_insertionSort distLE _
    have hpair := List.pairwise_iff_get.mp hs
    intro i j hi hj
    by_contra hij
    push_neg at hij
    rcases lt_or_eq_of_le hij with hlt | heq
    · have := hpair i j hlt
      unfold distLE at this
      rw [hi] at this
      exact absurd (lt_of_le_of_lt this hj) (lt_irrefl _)
    · subst heq
      exact absurd hi (ne_of_lt hj)

/-- Witness for C7: a query of length 1 against one matching-length and
one mismatched stored record. -/
theorem knn_mismatch_sentinel_witness :
    (∀ t ∈ [(⟨[1], 1⟩ : ProcessedPatientRecord), ⟨[1, 2], 0⟩],
        t.features.length = [(0 : ℚ)].length →
        euclidean_distance id [(0 : ℚ)] t.features < f32MAX) ∧
    ((∀ t ∈ [(⟨[1], 1⟩ : ProcessedPatientRecord), ⟨[1, 2], 0⟩],
        t.features.length ≠ [(0 : ℚ)].length →
        euclidean_distance id [(0 : ℚ)] t.features = f32MAX) ∧
      ∀ i j : Fin (knnSorted id [(0 : ℚ)] [(⟨[1], 1⟩ : ProcessedPatientRecord), ⟨[1, 2], 0⟩]).length,
        ((knnSorted id [(0 : ℚ)] [(⟨[1], 1⟩ : ProcessedPatientRecord), ⟨[1, 2], 0⟩]).get i).1 = f32MAX →
        ((knnSorted id [(0 : ℚ)] [(⟨[1], 1⟩ : ProcessedPatientRecord), ⟨[1, 2], 0⟩]).get j).1 < f32MAX →
        j < i) :=
  ⟨by
    intro t ht hlen
    fin_cases ht
    · norm_num [euclidean_distance, f32MAX]
    · norm_num at hlen,
  knn_mismatch_sentinel id [0] [⟨[1], 1⟩, ⟨[1, 2], 0⟩] (by
    intro t ht hlen
    fin_cases ht
    · norm_num [euclidean_distance, f32MAX]
    · norm_num at hlen)⟩

/-- Counterexample to C1 as stated: a freshly constructed
LogisticRegression does not return 0.  Its weight vector is empty, so
the dot product with the bias-extended features is 0, the source's
sigmoid gives exactly 0.5 there (also in f32), and the ≥ 0.5 threshold
fires, returning 1.  The sigmoid stand-in used here agrees with the
logistic function at the only evaluated point, 0. -/
theorem untrained_logistic_predicts_one :
    LogisticRegression.predict sigmoid_taylor (LogisticRegression.new (1 / 100) 1000) ⟨[1, 2], 0⟩ = 1 := by
  unfold LogisticRegression.predict LogisticRegression.new dot_weights
  rw [List.zip_nil_right]
  norm_num [sigmoid_taylor]

/-- C1 (amended): predict on a freshly constructed instance returns 0
for GaussianNB, KNN, DecisionTree, and a VotingClassifier over such
members, for every record; a freshly constructed LogisticRegression
instead returns 1 for every record, because the empty weight vector
gives z = 0 and sigmoid 0 = 1/2 meets the ≥ 0.5 threshold. -/
theorem untrained_predict_default (fns : Funs) (record : ProcessedPatientRecord)
    (k max_depth min_samples_split : Nat) (learning_rate : ℚ) (epochs : Nat)
    (hsig : fns.sig 0 = 1 / 2) :
    GaussianNB.predict fns.lnF fns.expF fns.sqrtF fns.piF [] record = 0 ∧
    KNN.predict fns.sqt (KNN.new k) record = 0 ∧
    DecisionTree.predict (DecisionTree.new max_depth min_samples_split) record = 0 ∧
    VotingClassifier.predict fns
      [ModelState.nb [], ModelState.knn (KNN.new k),
        ModelState.dt (DecisionTree.new max_depth min_samples_split)] record = 0 ∧
    LogisticRegression.predict fns.sig (LogisticRegression.new learning_rate epochs) record = 1 := by
  refine ⟨rfl, rfl, rfl, rfl, ?_⟩
  unfold LogisticRegression.predict LogisticRegression.new dot_weights
  rw [List.zip_nil_right]
  simp [hsig]

/-- Witness for the amended C1 at a concrete record and concrete
hyperparameters, with the sigmoid stand-in discharging the
sigmoid 0 = 1/2 hypothesis. -/
theorem untrained_predict_default_witness :
    fns_id.sig 0 = 1 / 2 ∧
    (GaussianNB.predict fns_id.lnF fns_id.expF fns_id.sqrtF fns_id.piF [] ⟨[3], 1⟩ = 0 ∧
      KNN.predict fns_id.sqt (KNN.new 3) ⟨[3], 1⟩ = 0 ∧
      DecisionTree.predict (DecisionTree.new 5 2) ⟨[3], 1⟩ = 0 ∧
      VotingClassifier.predict fns_id
        [ModelState.nb [], ModelState.knn (KNN.new 3), ModelState.dt (DecisionTree.new 5 2)] ⟨[3], 1⟩ = 0 ∧
      LogisticRegression.predict fns_id.sig (LogisticRegression.new (1 / 100) 1000) ⟨[3], 1⟩ = 1) :=
  ⟨by norm_num [fns_id, sigmoid_taylor],
    untrained_predict_default fns_id ⟨[3], 1⟩ 3 5 2 (1 / 100) 1000
      (by norm_num [fns_id, sigmoid_taylor])⟩

/-- C8: training with an empty collection leaves LogisticRegression,
GaussianNB and DecisionTree entirely unchanged, resets KNN to the
untrained state (the verbatim copy becomes empty), and the ensemble
just delegates to its members, each of which is likewise unchanged or
reset to untrained. -/
theorem empty_train_noop (fns : Funs) (lrS : LogisticRegression) (nbS : NBStats)
    (dtS : DecisionTree) (knnS : KNNState) (models : List ModelState) :
    LogisticRegression.train fns.sig lrS [] = lrS ∧
    GaussianNB.train nbS [] = nbS ∧
    DecisionTree.train dtS [] = dtS ∧
    KNN.train knnS [] = { knnS with training_data := [] } ∧
    VotingClassifier.train fns models [] = models.map (fun m => Model.train fns m []) ∧
    ∀ m ∈ models, Model.train fns m [] = m ∨
      ∃ s : KNNState, m = ModelState.knn s ∧ Model.train fns m [] = ModelState.knn ⟨[], s.k⟩ := by
  refine ⟨rfl, rfl, rfl, rfl, rfl, ?_⟩
  intro m _
  cases m with
  | lr s => exact Or.inl rfl
  | nb s => exact Or.inl rfl
  | knn s => exact Or.inr ⟨s, rfl, rfl⟩
  | dt s => exact Or.inl rfl

/-- Witness for C8 at concrete states: a previously trained-looking
state for each model and a one-member ensemble. -/
theorem empty_train_noop_witness :
    LogisticRegression.train fns_id.sig ⟨[1, 2], 1 / 10, 3⟩ [] = ⟨[1, 2], 1 / 10, 3⟩ ∧
    GaussianNB.train [(1, ⟨[.fin 1], [.fin 1], .fin 1⟩)] [] = [(1, ⟨[.fin 1], [.fin 1], .fin 1⟩)] ∧
    DecisionTree.train ⟨some (Node.Leaf 1), 4, 2⟩ [] = ⟨some (Node.Leaf 1), 4, 2⟩ ∧
    KNN.train ⟨[⟨[1], 1⟩], 3⟩ [] = { (⟨[⟨[1], 1⟩], 3⟩ : KNNState) with training_data := [] } ∧
    VotingClassifier.train fns_id [ModelState.knn ⟨[⟨[1], 1⟩], 3⟩] []
      = [ModelState.knn ⟨[⟨[1], 1⟩], 3⟩].map (fun m => Model.train fns_id m []) ∧
    ∀ m ∈ [ModelState.knn (⟨[⟨[1], 1⟩], 3⟩ : KNNState)], Model.train fns_id m [] = m ∨
      ∃ s : KNNState, m = ModelState.knn s ∧ Model.train fns_id m [] = ModelState.knn ⟨[], s.k⟩ :=
  empty_train_noop fns_id ⟨[1, 2], 1 / 10, 3⟩ [(1, ⟨[.fin 1], [.fin 1], .fin 1⟩)]
    ⟨some (Node.Leaf 1), 4, 2⟩ ⟨[⟨[1], 1⟩], 3⟩ [ModelState.knn ⟨[⟨[1], 1⟩], 3⟩]

/-- C3: training a decision tree on nonempty data whose records all
share one label L produces (for every prior state and any max_depth and
min_samples_split) a tree predicting L on every input record: the
all-same-target check fires at the root and builds the pure leaf. -/
theorem dt_pure_training (s : DecisionTree) (data : List ProcessedPatientRecord) (L : Nat)
    (hne : data ≠ []) (hall : ∀ r ∈ data, r.target = L)
    (record : ProcessedPatientRecord) :
    DecisionTree.predict (DecisionTree.train s data) record = L := by
  obtain ⟨r0, rest, rfl⟩ := List.exists_cons_of_ne_nil hne
  have hL : r0.target = L := hall r0 (List.mem_cons_self r0 rest)
  have hbuild : build_tree s.max_depth s.min_samples_split (r0 :: rest) 0 = Node.Leaf L := by
    rw [build_tree]
    have hcheck : (r0 :: rest).all
        (fun r => decide (r.target = (r0 :: rest).headI.target)) = true := by
      rw [List.all_eq_true]
      intro r hr
      rw [decide_eq_true_eq]
      simp only [List.headI]
      rw [hall r hr, hL]
    simp only [List.isEmpty_cons, if_false, Bool.false_eq_true, hcheck, if_true]
    simp only [List.headI, hL]
  unfold DecisionTree.train
  rw [if_neg (by simp)]
  unfold DecisionTree.predict
  simp only [hbuild]
  rfl

/-- Witness for C3: two records with label 1, default-ish
hyperparameters, and an unrelated query record. -/
theorem dt_pure_training_witness :
    ([(⟨[1], 1⟩ : ProcessedPatientRecord), ⟨[2], 1⟩] ≠ [] ∧
      ∀ r ∈ [(⟨[1], 1⟩ : ProcessedPatientRecord), ⟨[2], 1⟩], r.target = 1) ∧
    DecisionTree.predict (DecisionTree.train (DecisionTree.new 5 2) [⟨[1], 1⟩, ⟨[2], 1⟩]) ⟨[9], 0⟩ = 1 :=
  ⟨⟨by decide, by decide⟩,
    dt_pure_training (DecisionTree.new 5 2) [⟨[1], 1⟩, ⟨[2], 1⟩] 1 (by decide) (by decide) ⟨[9], 0⟩⟩

/-- C4: on nonempty data the Gini impurity lies in
[0, 1 − 1/num_classes], where num_classes is the number of distinct
labels occurring in the data, and it is 0 exactly when all records
share one label. -/
theorem gini_bounds (data : List ProcessedPatientRecord) (hne : data ≠ []) :
    0 ≤ calculate_gini data ∧
    calculate_gini data ≤ 1 - 1 / (((data.map (fun r => r.target)).toFinset.card : ℚ)) ∧
    (calculate_gini data = 0 ↔ ∃ L, ∀ r ∈ data, r.target = L) := by
  set labels := data.map (fun r => r.target) with hlabels
  have hlabne : labels ≠ [] := by
    rw [hlabels]
    simpa using hne
  have hn : 0 < labels.length := List.length_pos.mpr hlabne
  have hnQ : (0 : ℚ) < (labels.length : ℚ) := by exact_mod_cast hn
  have hsne : labels.toFinset.Nonempty := by
    obtain ⟨x, hx⟩ := List.exists_mem_of_ne_nil labels hlabne
    exact ⟨x, List.mem_toFinset.mpr hx⟩
  have hkQ : (0 : ℚ) < (labels.toFinset.card : ℚ) := by
    exact_mod_cast Finset.card_pos.mpr hsne
  have hgini : calculate_gini data
      = 1 - ∑ l ∈ labels.toFinset, (((labels.count l : ℚ)) / (labels.length : ℚ)) ^ 2 := by
    rw [calculate_gini, if_neg (by simpa [List.isEmpty_iff, hlabels] using hne)]
  have hsumcount : ∑ l ∈ labels.toFinset, ((labels.count l : ℚ)) = (labels.length : ℚ) := by
    exact_mod_cast congrArg (Nat.cast : Nat → ℚ) (List.sum_toFinset_count_eq_length labels)
  have hsum1 : ∑ l ∈ labels.toFinset, ((labels.count l : ℚ)) / (labels.length : ℚ) = 1 := by
    rw [← Finset.sum_div, hsumcount, div_self (ne_of_gt hnQ)]
  have hpnn : ∀ l ∈ labels.toFinset, 0 ≤ ((labels.count l : ℚ)) / (labels.length : ℚ) := by
    intro l _
    positivity
  have hple : ∀ l ∈ labels.toFinset, ((labels.count l : ℚ)) / (labels.length : ℚ) ≤ 1 := by
    intro l _
    rw [div_le_one hnQ]
    exact_mod_cast List.count_le_length l labels
  have hsqle : ∀ l ∈ labels.toFinset,
      (((labels.count l : ℚ)) / (labels.length : ℚ)) ^ 2
        ≤ ((labels.count l : ℚ)) / (labels.length : ℚ) := by
    intro l hl
    have := mul_le_mul_of_nonneg_right (hple l hl) (hpnn l hl)
    calc (((labels.count l : ℚ)) / (labels.length : ℚ)) ^ 2
        = ((labels.count l : ℚ)) / (labels.length : ℚ) * (((labels.count l : ℚ)) / (labels.length : ℚ)) := sq
          (((labels.count l : ℚ)) / (labels.length : ℚ))
      _ ≤ 1 * (((labels.count l : ℚ)) / (labels.length : ℚ)) := this
      _ = ((labels.count l : ℚ)) / (labels.length : ℚ) := one_mul _
  have hsumsq_le : ∑ l ∈ labels.toFinset, (((labels.count l : ℚ)) / (labels.length : ℚ)) ^ 2 ≤ 1 := by
    calc ∑ l ∈ labels.toFinset, (((labels.count l : ℚ)) / (labels.length : ℚ)) ^ 2
        ≤ ∑ l ∈ labels.toFinset, ((labels.count l : ℚ)) / (labels.length : ℚ) :=
          Finset.sum_le_sum hsqle
      _ = 1 := hsum1
  have hsumsq_ge : 1 / (labels.toFinset.card : ℚ)
      ≤ ∑ l ∈ labels.toFinset, (((labels.count l : ℚ)) / (labels.length : ℚ)) ^ 2 := by
    have hcs := sq_sum_le_card_mul_sum_sq
      (s := labels.toFinset) (f := fun l => ((labels.count l : ℚ)) / (labels.length : ℚ))
    rw [hsum1, one_pow] at hcs
    rw [div_le_iff hkQ]
    calc (1 : ℚ) ≤ (labels.toFinset.card : ℚ)
          * ∑ l ∈ labels.toFinset, (((labels.count l : ℚ)) / (labels.length : ℚ)) ^ 2 := hcs
      _ = (∑ l ∈ labels.toFinset, (((labels.count l : ℚ)) / (labels.length : ℚ)) ^ 2)
          * (labels.toFinset.card : ℚ) := mul_comm _ _
  refine ⟨?_, ?_, ?_⟩
  · rw [hgini]
    linarith
  · rw [hgini]
    linarith
  · rw [hgini]
    constructor
    · intro h0
      have hsumsq : ∑ l ∈ labels.toFinset, (((labels.count l : ℚ)) / (labels.length : ℚ)) ^ 2 = 1 := by
        linarith
      have hdiff : ∑ l ∈ labels.toFinset,
          (((labels.count l : ℚ)) / (labels.length : ℚ)
            - (((labels.count l : ℚ)) / (labels.length : ℚ)) ^ 2) = 0 := by
        rw [Finset.sum_sub_distrib, hsum1, hsumsq]
        ring
      have hzero := (Finset.sum_eq_zero_iff_of_nonneg (fun l hl => by
        have := hsqle l hl
        linarith)).mp hdiff
      obtain ⟨L, hLs⟩ := hsne
      have hLz := hzero L hLs
      have hLpos : 0 < ((labels.count L : ℚ)) / (labels.length : ℚ) := by
        have : 0 < labels.count L := List.count_pos_iff.mpr (List.mem_toFinset.mp hLs)
        positivity
      have hLone : ((labels.count L : ℚ)) / (labels.length : ℚ) = 1 := by
        have hfac : ((labels.count L : ℚ)) / (labels.length : ℚ)
            * (1 - ((labels.count L : ℚ)) / (labels.length : ℚ)) = 0 := by
          have : (((labels.count L : ℚ)) / (labels.length : ℚ)) ^ 2
              = ((labels.count L : ℚ)) / (labels.length : ℚ) := by linarith
          nlinarith [this]
        rcases mul_eq_zero.mp hfac with h | h
        · exact absurd h (ne_of_gt hLpos)
        · linarith
      have hcount : labels.count L = labels.length := by
        have : ((labels.count L : ℚ)) = (labels.length : ℚ) := by
          field_simp at hLone
          exact_mod_cast hLone
        exact_mod_cast this
      have hallL : ∀ b ∈ labels, L = b := List.count_eq_length.mp hcount
      refine ⟨L, fun r hr => ?_⟩
      exact (hallL r.target (by rw [hlabels]; exact List.mem_map.mpr ⟨r, hr, rfl⟩)).symm
    · rintro ⟨L, hL⟩
      have hallL : ∀ b ∈ labels, L = b := by
        intro b hb
        rw [hlabels] at hb
        obtain ⟨r, hr, hrb⟩ := List.mem_map.mp hb
        rw [← hrb, hL r hr]
      have hcount : labels.count L = labels.length := List.count_eq_length.mpr hallL
      have hLmem : L ∈ labels := by
        obtain ⟨x, hx⟩ := List.exists_mem_of_ne_nil labels hlabne
        rw [hallL x hx]
        exact hx
      have hsingle : labels.toFinset = {L} := by
        apply Finset.ext
        intro x
        simp only [List.mem_toFinset, Finset.mem_singleton]
        constructor
        · intro hx
          exact (hallL x hx).symm
        · intro hx
          rw [hx]
          exact hLmem
      rw [hsingle, Finset.sum_singleton, hcount, div_self (ne_of_gt hnQ)]
      ring

/-- Witness for C4: a two-record data set with two distinct labels;
the theorem is applied at that input. -/
theorem gini_bounds_witness :
    ([(⟨[1], 0⟩ : ProcessedPatientRecord), ⟨[2], 1⟩] ≠ []) ∧
    (0 ≤ calculate_gini [(⟨[1], 0⟩ : ProcessedPatientRecord), ⟨[2], 1⟩] ∧
      calculate_gini [(⟨[1], 0⟩ : ProcessedPatientRecord), ⟨[2], 1⟩]
        ≤ 1 - 1 / ((([(⟨[1], 0⟩ : ProcessedPatientRecord), ⟨[2], 1⟩].map
            (fun r => r.target)).toFinset.card : ℚ)) ∧
      (calculate_gini [(⟨[1], 0⟩ : ProcessedPatientRecord), ⟨[2], 1⟩] = 0 ↔
        ∃ L, ∀ r ∈ [(⟨[1], 0⟩ : ProcessedPatientRecord), ⟨[2], 1⟩], r.target = L)) :=
  ⟨by simp, gini_bounds [⟨[1], 0⟩, ⟨[2], 1⟩] (by simp)⟩

/-- The confusion-matrix fold of calculate_metrics counts, in one scan,
exactly the four prediction/label combinations. -/
theorem confusion_fold (predict : ProcessedPatientRecord → Nat)
    (l : List ProcessedPatientRecord) (c : Nat × Nat × Nat × Nat) :
    l.foldl (confusion_step predict) c
      = (c.1 + l.countP (fun r => decide (predict r = 1 ∧ r.target = 1)),
         c.2.1 + l.countP (fun r => decide (predict r = 0 ∧ r.target = 0)),
         c.2.2.1 + l.countP (fun r => decide (predict r = 1 ∧ r.target = 0)),
         c.2.2.2 + l.countP (fun r => decide (predict r = 0 ∧ r.target = 1))) := by
  induction l generalizing c with
  | nil => simp
  | cons r t ih =>
    rw [List.foldl_cons, ih]
    rcases hp : predict r with _ | np
    · rcases ht : r.target with _ | nt
      · simp [confusion_step, hp, ht, List.countP_cons, Prod.ext_iff] <;> omega
      · rcases nt with _ | nt
        · simp [confusion_step, hp, ht, List.countP_cons, Prod.ext_iff] <;> omega
        · simp [confusion_step, hp, ht, List.countP_cons, Prod.ext_iff] <;> omega
    · rcases np with _ | np
      · rcases ht : r.target with _ | nt
        · simp [confusion_step, hp, ht, List.countP_cons, Prod.ext_iff] <;> omega
        · rcases nt with _ | nt
          · simp [confusion_step, hp, ht, List.countP_cons, Prod.ext_iff] <;> omega
          · simp [confusion_step, hp, ht, List.countP_cons, Prod.ext_iff] <;> omega
      · rcases ht : r.target with _ | nt
        · simp [confusion_step, hp, ht, List.countP_cons, Prod.ext_iff] <;> omega
        · rcases nt with _ | nt
          · simp [confusion_step, hp, ht, List.countP_cons, Prod.ext_iff] <;> omega
          · simp [confusion_step, hp, ht, List.countP_cons, Prod.ext_iff] <;> omega

/-- C2: calculate_metrics counts TP/TN/FP/FN by comparing the
prediction with each record's true label in one scan and derives the
four metrics exactly as the spec formulas with their zero-guards
(the whole output coincides with the spec-side metrics_spec); and on
N > 0 records all labeled 1 with an all-zero predictor, TP = 0, FN = N
and all four metrics are 0. -/
theorem evaluator_metrics (predict : ProcessedPatientRecord → Nat)
    (test_data : List ProcessedPatientRecord)
    (hlab : ∀ r ∈ test_data, r.target = 0 ∨ r.target = 1)
    (hpred : ∀ r ∈ test_data, predict r = 0 ∨ predict r = 1) :
    calculate_metrics predict test_data = metrics_spec predict test_data ∧
    ((∀ r ∈ test_data, r.target = 1) → (∀ r ∈ test_data, predict r = 0) →
      0 < test_data.length →
      (calculate_metrics predict test_data).2.1 = 0 ∧
      (calculate_metrics predict test_data).2.2.2.2 = test_data.length ∧
      (calculate_metrics predict test_data).1 = ⟨0, 0, 0, 0⟩) := by
  have hfold := confusion_fold predict test_data (0, 0, 0, 0)
  have hprec_nonneg : ∀ a b : Nat,
      (0 : ℚ) ≤ (if 0 < a + b then (a : ℚ) / ((a + b : Nat) : ℚ) else 0) := by
    intro a b
    split
    · positivity
    · exact le_refl 0
  have hmain : calculate_metrics predict test_data = metrics_spec predict test_data := by
    unfold calculate_metrics metrics_spec
    rw [hfold]
    simp only [Nat.zero_add]
    refine Prod.ext ?_ rfl
    have hguard : ∀ a b : Nat,
        (if 0 < a + b then (a : ℚ) / ((a + b : Nat) : ℚ) else 0)
          = (if a + b = 0 then 0 else (a : ℚ) / ((a + b : Nat) : ℚ)) := by
      intro a b
      by_cases h : a + b = 0
      · rw [if_pos h, if_neg (by omega)]
      · rw [if_neg h, if_pos (by omega)]
    have hf1 : ∀ p q : ℚ, 0 ≤ p → 0 ≤ q →
        (if 0 < p + q then 2 * (p * q) / (p + q) else 0)
          = (if p + q = 0 then 0 else 2 * (p * q) / (p + q)) := by
      intro p q hp hq
      by_cases h : p + q = 0
      · rw [if_pos h, if_neg (by rw [h]; exact lt_irrefl 0)]
      · rw [if_neg h, if_pos (lt_of_le_of_ne (by linarith) (fun heq => h heq.symm))]
    apply Metrics.ext
    · rfl
    · exact hguard _ _
    · exact hguard _ _
    · rw [hguard, hguard]
      exact hf1 _ _ (by rw [← hguard]; exact hprec_nonneg _ _)
        (by rw [← hguard]; exact hprec_nonneg _ _)
  refine ⟨hmain, ?_⟩
  intro h1 h0 hlen
  have htp : test_data.countP (fun r => decide (predict r = 1 ∧ r.target = 1)) = 0 := by
    rw [List.countP_eq_zero]
    intro r hr
    simp [h0 r hr]
  have htn : test_data.countP (fun r => decide (predict r = 0 ∧ r.target = 0)) = 0 := by
    rw [List.countP_eq_zero]
    intro r hr
    simp [h1 r hr]
  have hfp : test_data.countP (fun r => decide (predict r = 1 ∧ r.target = 0)) = 0 := by
    rw [List.countP_eq_zero]
    intro r hr
    simp [h0 r hr]
  have hfn : test_data.countP (fun r => decide (predict r = 0 ∧ r.target = 1)) = test_data.length := by
    rw [List.countP_eq_length]
    intro r hr
    simp [h0 r hr, h1 r hr]
  rw [hmain]
  unfold metrics_spec
  simp only [htp, htn, hfp, hfn]
  refine ⟨by trivial, by trivial, ?_⟩
  have hlen2 : test_data.length ≠ 0 := Nat.pos_iff_ne_zero.mp hlen
  apply Metrics.ext <;> simp [hlen2]

/-- Witness for C2: two records with true label 1 and the all-zero
predictor; TP = 0, FN = 2 and all metrics are 0. -/
theorem evaluator_metrics_witness :
    ((∀ r ∈ [(⟨[1], 1⟩ : ProcessedPatientRecord), ⟨[2], 1⟩], r.target = 0 ∨ r.target = 1) ∧
      (∀ r ∈ [(⟨[1], 1⟩ : ProcessedPatientRecord), ⟨[2], 1⟩],
        (fun (_ : ProcessedPatientRecord) => 0) r = 0 ∨ (fun (_ : ProcessedPatientRecord) => 0) r = 1)) ∧
    (calculate_metrics (fun _ => 0) [(⟨[1], 1⟩ : ProcessedPatientRecord), ⟨[2], 1⟩]
        = metrics_spec (fun _ => 0) [(⟨[1], 1⟩ : ProcessedPatientRecord), ⟨[2], 1⟩] ∧
      ((∀ r ∈ [(⟨[1], 1⟩ : ProcessedPatientRecord), ⟨[2], 1⟩], r.target = 1) →
        (∀ r ∈ [(⟨[1], 1⟩ : ProcessedPatientRecord), ⟨[2], 1⟩],
          (fun (_ : ProcessedPatientRecord) => 0) r = 0) →
        0 < ([(⟨[1], 1⟩ : ProcessedPatientRecord), ⟨[2], 1⟩]).length →
        (calculate_metrics (fun _ => 0) [(⟨[1], 1⟩ : ProcessedPatientRecord), ⟨[2], 1⟩]).2.1 = 0 ∧
        (calculate_metrics (fun _ => 0) [(⟨[1], 1⟩ : ProcessedPatientRecord), ⟨[2], 1⟩]).2.2.2.2
          = ([(⟨[1], 1⟩ : ProcessedPatientRecord), ⟨[2], 1⟩]).length ∧
        (calculate_metrics (fun _ => 0) [(⟨[1], 1⟩ : ProcessedPatientRecord), ⟨[2], 1⟩]).1
          = ⟨0, 0, 0, 0⟩)) :=
  ⟨⟨by decide, by decide⟩,
    evaluator_metrics (fun _ => 0) [⟨[1], 1⟩, ⟨[2], 1⟩] (by decide) (by decide)⟩

/-- Addition of finite values stays finite and exact. -/
theorem fadd_fin (a b : ℚ) : fadd (.fin a) (.fin b) = .fin (a + b) := rfl

/-- Division of finite values with a nonzero denominator is exact. -/
theorem fdiv_fin (a b : ℚ) (hb : b ≠ 0) : fdiv (.fin a) (.fin b) = .fin (a / b) := by
  show (if b = 0 then (if a = 0 then FP.nan else if 0 < a then FP.inf else FP.neginf)
    else FP.fin (a / b)) = FP.fin (a / b)
  rw [if_neg hb]

/-- The f32 iterator sum of finite values is the exact rational sum. -/
theorem fsum_fin_go (qs : List ℚ) (a : ℚ) :
    (qs.map FP.fin).foldl fadd (.fin a) = .fin (a + qs.sum) := by
  induction qs generalizing a with
  | nil => simp
  | cons q t ih =>
    rw [List.map_cons, List.foldl_cons, fadd_fin, ih, List.sum_cons]
    rw [add_assoc]

/-- fsum on finite values. -/
theorem fsum_fin (qs : List ℚ) : fsum (qs.map FP.fin) = .fin qs.sum := by
  rw [fsum, fsum_fin_go, zero_add]

/-- Folding HashMap inserts of fresh distinct keys appends the new
entries in order. -/
theorem nb_insert_fold (data : List ProcessedPatientRecord) (cs : List Nat) (s : NBStats)
    (hnd : cs.Nodup)
    (hdisj : ∀ c ∈ cs, s.any (fun p => decide (p.1 = c)) = false) :
    cs.foldl (fun s c => insertAssoc s c (nb_class_stats data c)) s
      = s ++ cs.map (fun c => (c, nb_class_stats data c)) := by
  induction cs generalizing s with
  | nil => simp
  | cons c rest ih =>
    rw [List.foldl_cons]
    have hc : insertAssoc s c (nb_class_stats data c) = s ++ [(c, nb_class_stats data c)] := by
      unfold insertAssoc
      rw [if_neg (by rw [hdisj c (List.mem_cons_self c rest)]; exact Bool.false_ne_true)]
    rw [hc, ih (s ++ [(c, nb_class_stats data c)]) (List.Nodup.of_cons hnd) ?_]
    · rw [List.append_assoc]
      rfl
    · intro c₂ hc₂
      rw [List.any_append]
      have h1 : s.any (fun p => decide (p.1 = c₂)) = false :=
        hdisj c₂ (List.mem_cons_of_mem c hc₂)
      have h2 : [(c, nb_class_stats data c)].any (fun p => decide (p.1 = c₂)) = false := by
        simp only [List.any_cons, List.any_nil, Bool.or_false]
        rw [decide_eq_false]
        exact fun heq => (List.nodup_cons.mp hnd).1 (heq ▸ hc₂)
      rw [h1, h2]
      rfl

/-- Training a fresh GaussianNB produces exactly one entry per class
occurring in the data, in first-occurrence order. -/
theorem nb_train_from_empty (data : List ProcessedPatientRecord) (hne : data ≠ []) :
    GaussianNB.train [] data
      = ((data.map (fun r => r.target)).dedup).map (fun c => (c, nb_class_stats data c)) := by
  unfold GaussianNB.train
  rw [if_neg (by simpa [List.isEmpty_iff] using hne)]
  rw [nb_insert_fold data _ [] (List.nodup_dedup _) (by intro c _; rfl)]
  rfl

/-- The prior stored for a class is its record count over the total
count, exactly. -/
theorem nb_class_stats_prior (data : List ProcessedPatientRecord) (c : Nat)
    (hne : data ≠ []) :
    (nb_class_stats data c).prior
      = .fin (((data.countP (fun r => decide (r.target = c)) : Nat) : ℚ) / ((data.length : ℚ))) := by
  have hn : ((data.length : ℚ)) ≠ 0 := by
    exact_mod_cast Nat.pos_iff_ne_zero.mp (List.length_pos.mpr hne)
  show fdiv (.fin ((class_records data c).length : ℚ)) (.fin ((data.length : ℚ)))
      = .fin (((data.countP (fun r => decide (r.target = c)) : Nat) : ℚ) / ((data.length : ℚ)))
  rw [fdiv_fin _ _ hn]
  unfold class_records
  rw [← List.countP_eq_length_filter]

/-- C5 (amended): after training a freshly constructed GaussianNB on
nonempty data, every stored class's prior equals that class's record
count divided by the total count, and the priors sum to exactly 1.
(The source never clears the stats map, so this holds for the stored
classes after a first training — or whenever the new data covers every
stored class — but not after an arbitrary retraining; see the
counterexample.) -/
theorem nb_priors_fresh_train (data : List ProcessedPatientRecord) (hne : data ≠ []) :
    (∀ p ∈ GaussianNB.train [] data,
        p.2.prior = .fin (((data.countP (fun r => decide (r.target = p.1)) : Nat) : ℚ)
          / ((data.length : ℚ)))) ∧
    fsum ((GaussianNB.train [] data).map (fun p => p.2.prior)) = .fin 1 := by
  have htrain := nb_train_from_empty data hne
  have hnQ : ((data.length : ℚ)) ≠ 0 := by
    exact_mod_cast Nat.pos_iff_ne_zero.mp (List.length_pos.mpr hne)
  constructor
  · intro p hp
    rw [htrain] at hp
    obtain ⟨c, _, rfl⟩ := List.mem_map.mp hp
    exact nb_class_stats_prior data c hne
  · rw [htrain, List.map_map]
    have hmap : ((data.map (fun r => r.target)).dedup).map
        ((fun p => p.2.prior) ∘ (fun c => (c, nb_class_stats data c)))
        = (((data.map (fun r => r.target)).dedup).map
            (fun c => ((data.countP (fun r => decide (r.target = c)) : Nat) : ℚ)
              / ((data.length : ℚ)))).map FP.fin := by
      rw [List.map_map]
      apply List.map_congr_left
      intro c _
      exact nb_class_stats_prior data c hne
    rw [hmap, fsum_fin]
    have hded : (data.map (fun r => r.target)).dedup.toFinset
        = (data.map (fun r => r.target)).toFinset := by
      apply Finset.ext
      intro x
      simp [List.mem_toFinset, List.mem_dedup]
    have hcount : ∀ c : Nat,
        data.countP (fun r => decide (r.target = c)) = (data.map (fun r => r.target)).count c := by
      intro c
      rw [List.count, List.countP_map]
      apply List.countP_congr
      intro r _
      simp
    have hsum : ((data.map (fun r => r.target)).dedup.map
        (fun c => ((data.countP (fun r => decide (r.target = c)) : Nat) : ℚ)
          / ((data.length : ℚ)))).sum = 1 := by
      rw [← List.sum_toFinset _ (List.nodup_dedup _), hded, ← Finset.sum_div]
      have hlen : (data.map (fun r => r.target)).length = data.length := List.length_map _ _
      have : ∑ c ∈ (data.map (fun r => r.target)).toFinset,
          (((data.countP (fun r => decide (r.target = c)) : Nat) : ℚ))
          = ((data.length : ℚ)) := by
        have hc : ∑ c ∈ (data.map (fun r => r.target)).toFinset,
            ((data.map (fun r => r.target)).count c) = data.length := by
          rw [List.sum_toFinset_count_eq_length, hlen]
        calc ∑ c ∈ (data.map (fun r => r.target)).toFinset,
              (((data.countP (fun r => decide (r.target = c)) : Nat) : ℚ))
            = ∑ c ∈ (data.map (fun r => r.target)).toFinset,
              ((((data.map (fun r => r.target)).count c : Nat) : ℚ)) := by
              apply Finset.sum_congr rfl
              intro c _
              exact_mod_cast congrArg (Nat.cast : Nat → ℚ) (hcount c)
          _ = ((data.length : ℚ)) := by exact_mod_cast congrArg (Nat.cast : Nat → ℚ) hc
      rw [this, div_self hnQ]
    rw [hsum]

/-- Witness for the amended C5: two records, one per class; priors are
1/2 each and sum to 1. -/
theorem nb_priors_fresh_train_witness :
    ([(⟨[0], 0⟩ : ProcessedPatientRecord), ⟨[0], 1⟩] ≠ []) ∧
    ((∀ p ∈ GaussianNB.train [] [(⟨[0], 0⟩ : ProcessedPatientRecord), ⟨[0], 1⟩],
        p.2.prior = .fin ((([(⟨[0], 0⟩ : ProcessedPatientRecord), ⟨[0], 1⟩].countP
            (fun r => decide (r.target = p.1)) : Nat) : ℚ)
          / ((([(⟨[0], 0⟩ : ProcessedPatientRecord), ⟨[0], 1⟩]).length : ℚ)))) ∧
      fsum ((GaussianNB.train [] [(⟨[0], 0⟩ : ProcessedPatientRecord), ⟨[0], 1⟩]).map
        (fun p => p.2.prior)) = .fin 1) :=
  ⟨by simp, nb_priors_fresh_train [⟨[0], 0⟩, ⟨[0], 1⟩] (by simp)⟩

/-- Counterexample to C5 as stated: train on one record of class 0 and
one of class 1, then retrain on a single class-1 record.  The stats map
is not cleared, the stale class-0 prior 1/2 survives next to the new
class-1 prior 1, and the stored priors sum to 3/2, not 1. -/
theorem nb_retrain_priors_counterexample :
    fsum ((GaussianNB.train (GaussianNB.train []
        [(⟨[0], 0⟩ : ProcessedPatientRecord), ⟨[0], 1⟩])
        [(⟨[0], 1⟩ : ProcessedPatientRecord)]).map (fun p => p.2.prior)) = .fin (3 / 2) ∧
    (3 : ℚ) / 2 ≠ 1 := by
  constructor
  · have h2 : GaussianNB.train (GaussianNB.train []
        [(⟨[0], 0⟩ : ProcessedPatientRecord), ⟨[0], 1⟩]) [(⟨[0], 1⟩ : ProcessedPatientRecord)]
        = [(0, nb_class_stats [(⟨[0], 0⟩ : ProcessedPatientRecord), ⟨[0], 1⟩] 0),
           (1, nb_class_stats [(⟨[0], 1⟩ : ProcessedPatientRecord)] 1)] := rfl
    rw [h2]
    have hp0 := nb_class_stats_prior [(⟨[0], 0⟩ : ProcessedPatientRecord), ⟨[0], 1⟩] 0 (by simp)
    have hp1 := nb_class_stats_prior [(⟨[0], 1⟩ : ProcessedPatientRecord)] 1 (by simp)
    have hc0 : ([(⟨[0], 0⟩ : ProcessedPatientRecord), ⟨[0], 1⟩]).countP
        (fun r => decide (r.target = 0)) = 1 := rfl
    have hc1 : ([(⟨[0], 1⟩ : ProcessedPatientRecord)]).countP
        (fun r => decide (r.target = 1)) = 1 := rfl
    rw [hc0] at hp0
    rw [hc1] at hp1
    rw [List.map_cons, List.map_cons, List.map_nil]
    rw [fsum, List.foldl_cons, List.foldl_cons, List.foldl_nil, hp0, hp1, fadd_fin, fadd_fin]
    norm_num
  · norm_num

/-- IEEE NaN absorbs addition on the left. -/
theorem fadd_nan_left (x : FP) : fadd .nan x = .nan := by cases x <;> rfl

/-- IEEE NaN absorbs addition on the right. -/
theorem fadd_nan_right (x : FP) : fadd x .nan = .nan := by cases x <;> rfl

/-- IEEE NaN absorbs multiplication on the left. -/
theorem fmul_nan_left (x : FP) : fmul .nan x = .nan := by cases x <;> rfl

/-- IEEE NaN absorbs multiplication on the right. -/
theorem fmul_nan_right (x : FP) : fmul x .nan = .nan := by cases x <;> rfl

/-- IEEE NaN absorbs division on the right. -/
theorem fdiv_nan_right (x : FP) : fdiv x .nan = .nan := by cases x <;> rfl

/-- NaN is never strictly greater than anything. -/
theorem fgt_nan_left (x : FP) : fgt .nan x = false := by cases x <;> rfl

/-- 0.0/0.0 is NaN. -/
theorem fdiv_zero_den (a : ℚ) (ha : a = 0) : fdiv (.fin a) (.fin 0) = .nan := by
  show (if (0 : ℚ) = 0 then (if a = 0 then FP.nan else if 0 < a then FP.inf else FP.neginf)
    else FP.fin (a / 0)) = FP.nan
  rw [if_pos rfl, if_pos ha]

/-- Once the accumulated posterior is NaN it stays NaN through the
remaining feature terms. -/
theorem foldl_fadd_nan (h : Nat → FP) (l : List Nat) :
    l.foldl (fun post i => fadd post (h i)) FP.nan = FP.nan := by
  induction l with
  | nil => rfl
  | cons a t ih =>
    rw [List.foldl_cons, fadd_nan_left]
    exact ih

/-- A NaN variance poisons the whole Gaussian likelihood. -/
theorem calculate_likelihood_nan (expF sqrtF : FP → FP) (piF x mean : FP)
    (hsqrt : sqrtF .nan = .nan) :
    calculate_likelihood expF sqrtF piF x mean .nan = .nan := by
  unfold calculate_likelihood
  rw [fmul_nan_right (fmul (.fin 2) piF), hsqrt, fdiv_nan_right, fmul_nan_left]

/-- For a class with exactly one training record, every stored variance
entry is NaN: the per-feature deviation sum is exactly 0.0 and it is
divided by (1−1) = 0.0, and adding the 1e-9 epsilon keeps NaN. -/
theorem nb_singleton_variance_nan (data : List ProcessedPatientRecord) (c : Nat)
    (hc : data.countP (fun r => decide (r.target = c)) = 1) :
    ∀ v ∈ (nb_class_stats data c).variance, v = FP.nan := by
  have hlen : (class_records data c).length = 1 := by
    unfold class_records
    rw [← List.countP_eq_length_filter]
    exact hc
  obtain ⟨rc, hrc⟩ := List.length_eq_one.mp hlen
  intro v hv
  unfold nb_class_stats at hv
  rw [hrc] at hv
  obtain ⟨pair, hpair, hpv⟩ := List.mem_map.mp hv
  obtain ⟨i, _, hip⟩ := List.mem_map.mp hpair
  rw [← hpv, ← hip]
  simp only [List.map_cons, List.map_nil, List.length_cons, List.length_nil]
  have h1 : fsum [FP.fin (rc.features.getD i 0)] = .fin (0 + rc.features.getD i 0) := by
    show fadd (.fin 0) (.fin (rc.features.getD i 0)) = _
    rw [fadd_fin]
  have hcast : (((0 + 1 : Nat)) : ℚ) = 1 := by norm_num
  have h2 : fdiv (fsum [FP.fin (rc.features.getD i 0)]) (.fin (((0 + 1 : Nat)) : ℚ))
      = .fin ((0 + rc.features.getD i 0) / 1) := by
    rw [h1, hcast, fdiv_fin _ _ one_ne_zero]
  have h3 : fsub (.fin (rc.features.getD i 0)) (.fin ((0 + rc.features.getD i 0) / 1))
      = .fin 0 := by
    unfold fsub fneg
    rw [fadd_fin]
    norm_num
  have h4 : fmul (FP.fin 0) (FP.fin 0) = .fin 0 := by
    show FP.fin (0 * 0) = _
    norm_num
  have h5 : fsum [FP.fin 0] = .fin 0 := by
    show fadd (.fin 0) (.fin 0) = _
    rw [fadd_fin]
    norm_num
  have h6 : (((0 + 1 - 1 : Nat)) : ℚ) = 0 := by norm_num
  rw [h2, h3, h4, h5, h6, fdiv_zero_den 0 rfl, fadd_nan_left]

/-- With NaN-propagating ln, exp and sqrt, a class whose first stored
variance entry is NaN (or whose variance vector is empty) accumulates a
NaN log-posterior on any record with at least one feature. -/
theorem nb_posterior_nan (lnF expF sqrtF : FP → FP) (piF : FP)
    (stats : ClassStats) (record : ProcessedPatientRecord)
    (hln : lnF .nan = .nan) (hsqrt : sqrtF .nan = .nan)
    (hrec : 0 < record.features.length)
    (hvar : stats.variance.getD 0 FP.nan = FP.nan) :
    nb_posterior lnF expF sqrtF piF stats record = FP.nan := by
  obtain ⟨m, hm⟩ : ∃ m, record.features.length = m + 1 :=
    ⟨record.features.length - 1, by omega⟩
  unfold nb_posterior
  rw [hm, List.range_succ_eq_map, List.foldl_cons]
  rw [hvar, calculate_likelihood_nan expF sqrtF piF _ _ hsqrt, fadd_nan_left, hln, fadd_nan_right]
  exact foldl_fadd_nan _ _

/-- Entries whose posterior is NaN never update the running maximum in
GaussianNB::predict, so they can be deleted from the stats without
changing the prediction. -/
theorem nb_predict_skip (lnF expF sqrtF : FP → FP) (piF : FP) (stats : NBStats)
    (record : ProcessedPatientRecord) (c : Nat)
    (hnan : ∀ p ∈ stats, p.1 = c →
      nb_posterior lnF expF sqrtF piF p.2 record = FP.nan) :
    GaussianNB.predict lnF expF sqrtF piF stats record
      = GaussianNB.predict lnF expF sqrtF piF
          (stats.filter (fun p => decide (¬ p.1 = c))) record := by
  unfold GaussianNB.predict
  congr 1
  suffices h : ∀ (l : NBStats) (acc : Nat × FP),
      (∀ p ∈ l, p.1 = c → nb_posterior lnF expF sqrtF piF p.2 record = FP.nan) →
      List.foldl
        (fun acc p =>
          if fgt (nb_posterior lnF expF sqrtF piF p.2 record) acc.2 then
            (p.1, nb_posterior lnF expF sqrtF piF p.2 record)
          else acc) acc l
        = List.foldl
          (fun acc p =>
            if fgt (nb_posterior lnF expF sqrtF piF p.2 record) acc.2 then
              (p.1, nb_posterior lnF expF sqrtF piF p.2 record)
            else acc) acc (l.filter (fun p => decide (¬ p.1 = c))) by
    exact h stats (0, .neginf) hnan
  intro l
  induction l with
  | nil =>
    intro acc _
    rfl
  | cons p t ih =>
    intro acc hl
    by_cases hp : p.1 = c
    · have hpost := hl p (List.mem_cons_self p t) hp
      have hstep : (if fgt (nb_posterior lnF expF sqrtF piF p.2 record) acc.2 = true then
          (p.1, nb_posterior lnF expF sqrtF piF p.2 record) else acc) = acc := by
        rw [hpost, fgt_nan_left]
        simp
      have hfil : (List.filter (fun p => decide (¬ p.1 = c)) (p :: t))
          = List.filter (fun p => decide (¬ p.1 = c)) t := by
        rw [List.filter_cons, if_neg (by simp [hp])]
      rw [List.foldl_cons, hstep, hfil]
      exact ih acc (fun q hq hqc => hl q (List.mem_cons_of_mem p hq) hqc)
    · have hfil : (List.filter (fun p => decide (¬ p.1 = c)) (p :: t))
          = p :: List.filter (fun p => decide (¬ p.1 = c)) t := by
        rw [List.filter_cons, if_pos (by simp [hp])]
      rw [hfil, List.foldl_cons, List.foldl_cons]
      exact ih _ (fun q hq hqc => hl q (List.mem_cons_of_mem p hq) hqc)

/-- C10: when the training data has exactly one record of class c, the
sample variance of that class divides an exact 0.0 by (1−1) = 0.0,
which is NaN, so every stored variance entry for c is NaN; on any
record with at least one feature the accumulated log-posterior of class
c is then NaN (for any NaN-propagating ln, exp, sqrt), a NaN never wins
the strictly-greater comparison, and predict on the freshly trained
stats gives the same answer as if the class-c entry were absent. -/
theorem nb_singleton_class_nan (data : List ProcessedPatientRecord) (c : Nat)
    (lnF expF sqrtF : FP → FP) (piF : FP) (record : ProcessedPatientRecord)
    (hc : data.countP (fun r => decide (r.target = c)) = 1)
    (hln : lnF .nan = .nan) (hsqrt : sqrtF .nan = .nan)
    (hrec : 0 < record.features.length) :
    (∀ v ∈ (nb_class_stats data c).variance, v = FP.nan) ∧
    nb_posterior lnF expF sqrtF piF (nb_class_stats data c) record = FP.nan ∧
    GaussianNB.predict lnF expF sqrtF piF (GaussianNB.train [] data) record
      = GaussianNB.predict lnF expF sqrtF piF
          ((GaussianNB.train [] data).filter (fun p => decide (¬ p.1 = c))) record := by
  have hvarnan := nb_singleton_variance_nan data c hc
  have hvar0 : (nb_class_stats data c).variance.getD 0 FP.nan = FP.nan := by
    cases hv : (nb_class_stats data c).variance with
    | nil => rfl
    | cons v t =>
      show v = FP.nan
      exact hvarnan v (hv ▸ List.mem_cons_self v t)
  have hpost := nb_posterior_nan lnF expF sqrtF piF (nb_class_stats data c) record
    hln hsqrt hrec hvar0
  refine ⟨hvarnan, hpost, ?_⟩
  apply nb_predict_skip
  intro p hp hpc
  have hne : data ≠ [] := by
    intro hnil
    rw [hnil] at hc
    simp at hc
  rw [nb_train_from_empty data hne] at hp
  obtain ⟨c₂, _, rfl⟩ := List.mem_map.mp hp
  have hcc : c₂ = c := hpc
  subst hcc
  exact hpost

/-- Witness for C10: three records where class 0 has exactly one
record; identity stand-ins for ln, exp, sqrt (they propagate NaN). -/
theorem nb_singleton_class_nan_witness :
    (([(⟨[5], 0⟩ : ProcessedPatientRecord), ⟨[1], 1⟩, ⟨[2], 1⟩].countP
        (fun r => decide (r.target = 0)) = 1) ∧
      id FP.nan = FP.nan ∧ id FP.nan = FP.nan ∧
      0 < (⟨[3], 0⟩ : ProcessedPatientRecord).features.length) ∧
    ((∀ v ∈ (nb_class_stats [(⟨[5], 0⟩ : ProcessedPatientRecord), ⟨[1], 1⟩, ⟨[2], 1⟩] 0).variance,
        v = FP.nan) ∧
      nb_posterior id id id (.fin 0)
        (nb_class_stats [(⟨[5], 0⟩ : ProcessedPatientRecord), ⟨[1], 1⟩, ⟨[2], 1⟩] 0) ⟨[3], 0⟩
        = FP.nan ∧
      GaussianNB.predict id id id (.fin 0)
        (GaussianNB.train [] [(⟨[5], 0⟩ : ProcessedPatientRecord), ⟨[1], 1⟩, ⟨[2], 1⟩]) ⟨[3], 0⟩
        = GaussianNB.predict id id id (.fin 0)
          ((GaussianNB.train [] [(⟨[5], 0⟩ : ProcessedPatientRecord), ⟨[1], 1⟩, ⟨[2], 1⟩]).filter
            (fun p => decide (¬ p.1 = 0))) ⟨[3], 0⟩) :=
  ⟨⟨rfl, rfl, rfl, by decide⟩,
    nb_singleton_class_nan [⟨[5], 0⟩, ⟨[1], 1⟩, ⟨[2], 1⟩] 0 id id id (.fin 0) ⟨[3], 0⟩
      rfl rfl rfl (by decide)⟩
